import Mathlib

/-
Verification of the easy-archiver transcoding layer.

The development shallowly embeds the four source files (driver.rs, lib.rs,
encoder.rs, decoder.rs) of the archiver.  Byte contents are lists of
naturals, filesystem paths are lists of path segments, and the external
codec libraries (gzip/bzip2/xz/7z compressors, the tar and zip container
crates, the sha256 hash and the glob matcher), which the specification
declares out of scope and consumed as opaque capabilities, appear either as
parameters of the theorems together with their documented contracts, or as
definitions modelled from the specification's words.
-/

namespace EasyArchiver

/-- Bytes of file contents; the value set is irrelevant to the archiver. -/
abbrev Byte := Nat

/-- Filesystem paths as lists of path segments (the source joins segments
with a forward slash). -/
abbrev Path := List String

/-! ### driver.rs: the Driver registry -/

/-- Driver enumeration from src/driver.rs. -/
inductive Driver where
  | Gzip
  | Bzip2
  | Zip
  | SevenZ
  | Xz
  deriving DecidableEq

/-- Fixed temporary tar filename from src/driver.rs (SEVEN_Z_TAR_FILENAME). -/
def sevenZTarFilename : String := "swiss_army_archive_seven7_temp.tar"

/-- Rust str::ends_with, expressed on the underlying character lists. -/
def strEndsWith (s sfx : String) : Bool := sfx.data.isSuffixOf s.data

/-- Driver::extension from src/driver.rs. -/
def Driver.extension : Driver → String
  | .Gzip => "tar.gz"
  | .Bzip2 => "tar.bz2"
  | .Zip => "zip"
  | .SevenZ => "tar.7z"
  | .Xz => "tar.xz"

/-- Driver::from_filename from src/driver.rs: first matching suffix in the
fixed chain wins. -/
def Driver.fromFilename (filename : String) : Option Driver :=
  if strEndsWith filename ".tar.gz" || strEndsWith filename ".tgz" then
    some Driver.Gzip
  else if strEndsWith filename ".tar.bz" || strEndsWith filename ".tar.bz2" then
    some Driver.Bzip2
  else if strEndsWith filename ".zip" then
    some Driver.Zip
  else if strEndsWith filename ".tar.7z" then
    some Driver.SevenZ
  else if strEndsWith filename ".tar.xz" then
    some Driver.Xz
  else
    none

lemma strEndsWith_iff {s sfx : String} : strEndsWith s sfx = true ↔ sfx.data <:+ s.data := by
  rw [strEndsWith, List.isSuffixOf_iff_suffix]

lemma ends_not_both {name a b : String} (ha : strEndsWith name a = true)
    (hb : strEndsWith name b = true)
    (hab : ¬ a.data <:+ b.data) (hba : ¬ b.data <:+ a.data) : False := by
  rw [strEndsWith_iff] at ha hb
  rcases List.suffix_or_suffix_of_suffix ha hb with h | h
  · exact hab h
  · exact hba h

/-- C4: Driver::from_filename returns Gzip iff the name ends with ".tar.gz" or
".tgz", Bzip2 iff it ends with ".tar.bz" or ".tar.bz2", Zip iff it ends with
".zip", SevenZ iff it ends with ".tar.7z", Xz iff it ends with ".tar.xz", and
none for any other suffix; moreover from_filename("release-1.0.tar.gz") =
Gzip, from_filename("release.tar.7z") = SevenZ, and
from_filename("x.unknownext") = none. -/
theorem from_filename_characterization :
    (∀ name : String,
      (Driver.fromFilename name = some Driver.Gzip ↔
        (strEndsWith name ".tar.gz" = true ∨ strEndsWith name ".tgz" = true)) ∧
      (Driver.fromFilename name = some Driver.Bzip2 ↔
        (strEndsWith name ".tar.bz" = true ∨ strEndsWith name ".tar.bz2" = true)) ∧
      (Driver.fromFilename name = some Driver.Zip ↔ strEndsWith name ".zip" = true) ∧
      (Driver.fromFilename name = some Driver.SevenZ ↔ strEndsWith name ".tar.7z" = true) ∧
      (Driver.fromFilename name = some Driver.Xz ↔ strEndsWith name ".tar.xz" = true) ∧
      (Driver.fromFilename name = none ↔
        ¬ (strEndsWith name ".tar.gz" = true ∨ strEndsWith name ".tgz" = true ∨
           strEndsWith name ".tar.bz" = true ∨ strEndsWith name ".tar.bz2" = true ∨
           strEndsWith name ".zip" = true ∨ strEndsWith name ".tar.7z" = true ∨
           strEndsWith name ".tar.xz" = true))) ∧
    Driver.fromFilename "release-1.0.tar.gz" = some Driver.Gzip ∧
    Driver.fromFilename "release.tar.7z" = some Driver.SevenZ ∧
    Driver.fromFilename "x.unknownext" = none := by
  refine ⟨fun name => ?_, by decide, by decide, by decide⟩
  unfold Driver.fromFilename
  split_ifs with h1 h2 h3 h4 h5
  · rw [Bool.or_eq_true] at h1
    refine ⟨iff_of_true rfl h1, ?_, ?_, ?_, ?_, ?_⟩
    · refine iff_of_false (by simp) ?_
      rintro (hb | hb) <;> rcases h1 with hg | hg <;>
        exact ends_not_both hg hb (by decide) (by decide)
    · refine iff_of_false (by simp) ?_
      intro hz
      rcases h1 with hg | hg <;> exact ends_not_both hg hz (by decide) (by decide)
    · refine iff_of_false (by simp) ?_
      intro hs
      rcases h1 with hg | hg <;> exact ends_not_both hg hs (by decide) (by decide)
    · refine iff_of_false (by simp) ?_
      intro hx
      rcases h1 with hg | hg <;> exact ends_not_both hg hx (by decide) (by decide)
    · refine iff_of_false (by simp) fun hno => hno ?_
      rcases h1 with hg | hg
      · exact Or.inl hg
      · exact Or.inr (Or.inl hg)
  · rw [Bool.or_eq_true] at h1 h2
    refine ⟨iff_of_false (by simp) h1, iff_of_true rfl h2, ?_, ?_, ?_, ?_⟩
    · refine iff_of_false (by simp) ?_
      intro hz
      rcases h2 with hb | hb <;> exact ends_not_both hb hz (by decide) (by decide)
    · refine iff_of_false (by simp) ?_
      intro hs
      rcases h2 with hb | hb <;> exact ends_not_both hb hs (by decide) (by decide)
    · refine iff_of_false (by simp) ?_
      intro hx
      rcases h2 with hb | hb <;> exact ends_not_both hb hx (by decide) (by decide)
    · refine iff_of_false (by simp) fun hno => hno ?_
      rcases h2 with hb | hb
      · exact Or.inr (Or.inr (Or.inl hb))
      · exact Or.inr (Or.inr (Or.inr (Or.inl hb)))
  · rw [Bool.or_eq_true] at h1 h2
    refine ⟨iff_of_false (by simp) h1, iff_of_false (by simp) h2, iff_of_true rfl h3,
      ?_, ?_, ?_⟩
    · refine iff_of_false (by simp) ?_
      intro hs
      exact ends_not_both h3 hs (by decide) (by decide)
    · refine iff_of_false (by simp) ?_
      intro hx
      exact ends_not_both h3 hx (by decide) (by decide)
    · exact iff_of_false (by simp) fun hno =>
        hno (Or.inr (Or.inr (Or.inr (Or.inr (Or.inl h3)))))
  · rw [Bool.or_eq_true] at h1 h2
    refine ⟨iff_of_false (by simp) h1, iff_of_false (by simp) h2,
      iff_of_false (by simp) h3, iff_of_true rfl h4, ?_, ?_⟩
    · refine iff_of_false (by simp) ?_
      intro hx
      exact ends_not_both h4 hx (by decide) (by decide)
    · exact iff_of_false (by simp) fun hno =>
        hno (Or.inr (Or.inr (Or.inr (Or.inr (Or.inr (Or.inl h4))))))
  · rw [Bool.or_eq_true] at h1 h2
    refine ⟨iff_of_false (by simp) h1, iff_of_false (by simp) h2,
      iff_of_false (by simp) h3, iff_of_false (by simp) h4, iff_of_true rfl h5, ?_⟩
    exact iff_of_false (by simp) fun hno =>
      hno (Or.inr (Or.inr (Or.inr (Or.inr (Or.inr (Or.inr h5))))))
  · rw [Bool.or_eq_true] at h1 h2
    refine ⟨iff_of_false (by simp) h1, iff_of_false (by simp) h2,
      iff_of_false (by simp) h3, iff_of_false (by simp) h4,
      iff_of_false (by simp) h5, iff_of_true rfl ?_⟩
    rintro (h | h | h | h | h | h | h)
    · exact h1 (Or.inl h)
    · exact h1 (Or.inr h)
    · exact h2 (Or.inl h)
    · exact h2 (Or.inr h)
    · exact h3 h
    · exact h4 h
    · exact h5 h

/-! ### lib.rs: the manifest builder -/

/-- Modelled from the spec: glob matching is supplied by the external
glob_match crate; per the specification's external-interface section, a `*`
in a pattern matches any run of characters within a path segment (it never
crosses a `/`), and any other pattern character matches literally.  The fuel
argument bounds the recursion; the wrapper below supplies enough fuel for
the match to run to completion. -/
def globMatchAux : Nat → List Char → List Char → Bool
  | 0, _, _ => false
  | _ + 1, [], [] => true
  | fuel + 1, '*' :: ps, [] => globMatchAux fuel ps []
  | fuel + 1, '*' :: ps, c :: rest =>
      globMatchAux fuel ps (c :: rest) ||
        (c != '/' && globMatchAux fuel ('*' :: ps) rest)
  | fuel + 1, p :: ps, c :: rest => p == c && globMatchAux fuel ps rest
  | _ + 1, _ :: _, [] => false
  | _ + 1, [], _ :: _ => false

/-- Modelled from the spec: entry point of the external glob matcher (see
globMatchAux). -/
def globMatch (pat text : String) : Bool :=
  globMatchAux (pat.data.length + text.data.length + 1) pat.data text.data

/-- CreateArchive::build_file_list from src/lib.rs: the recursive directory
walk is abstracted by the input list `allFiles` of (archive path, source
path) pairs in walk order; the include pass (default match when no include
list is present, otherwise any-of) and the per-pattern exclude retain loop
mirror the source. -/
def buildFileList (includes excludes : Option (List String))
    (allFiles : List (String × String)) : List (String × String) :=
  let files := allFiles.filter fun f =>
    match includes with
    | none => true
    | some pats => pats.any fun pat => globMatch pat f.1
  match excludes with
  | none => files
  | some pats =>
      pats.foldl (fun acc pat => acc.filter fun f => ! globMatch pat f.1) files

/-- Spec-side admission predicate for C6: a file is admitted iff (no include
list is present, or some include glob matches its archive-relative path) and
no exclude glob matches its archive-relative path. -/
def admitsFile (includes excludes : Option (List String)) (archivePath : String) : Bool :=
  (match includes with
   | none => true
   | some pats => pats.any fun pat => globMatch pat archivePath) &&
  (match excludes with
   | none => true
   | some pats => ! pats.any fun pat => globMatch pat archivePath)

lemma foldl_filter_eq_filter_all {α : Type} (q : String → α → Bool) :
    ∀ (pats : List String) (fs : List α),
      pats.foldl (fun acc pat => acc.filter fun f => ! q pat f) fs
        = fs.filter fun f => pats.all fun pat => ! q pat f := by
  intro pats
  induction pats with
  | nil => intro fs; simp
  | cons p ps ih =>
      intro fs
      rw [List.foldl_cons, ih, List.filter_filter]
      apply List.filter_congr
      intro a _
      simp [Bool.and_comm]

lemma not_any_eq_all_not {α : Type} (l : List α) (q : α → Bool) :
    (! l.any q) = l.all fun a => ! q a := by
  induction l with
  | nil => rfl
  | cons a l ih => simp [List.any_cons, List.all_cons, ih]

/-- C6: the manifest builder admits a file iff (no include list is present or
some include glob matches the archive-relative path) and no exclude glob
matches it, includes evaluated before excludes, all matching on
archive-relative paths; a present-but-empty include list excludes every
file. -/
theorem build_file_list_filter_semantics :
    (∀ includes excludes allFiles,
      buildFileList includes excludes allFiles
        = allFiles.filter fun f => admitsFile includes excludes f.1) ∧
    (∀ excludes allFiles, buildFileList (some []) excludes allFiles = []) := by
  have main : ∀ includes excludes allFiles,
      buildFileList includes excludes allFiles
        = allFiles.filter fun f => admitsFile includes excludes f.1 := by
    intro includes excludes allFiles
    unfold buildFileList admitsFile
    cases excludes with
    | none =>
        simp only []
        apply List.filter_congr
        intro a _
        cases includes <;> simp
    | some pats =>
        simp only []
        rw [foldl_filter_eq_filter_all, List.filter_filter]
        apply List.filter_congr
        intro a _
        rw [not_any_eq_all_not]
        cases includes <;> simp [Bool.and_comm]
  refine ⟨main, fun excludes allFiles => ?_⟩
  rw [main]
  have : ∀ f : String × String, admitsFile (some []) excludes f.1 = false := by
    intro f
    unfold admitsFile
    simp
  simp [this]

/-- Input file set of the manifest filter scenario, in walk order; the
source path of each entry is its archive path under the walked root. -/
def scenarioFiles : List (String × String) :=
  [("a/a.txt", "test/a/a.txt"), ("a/b.txt", "test/a/b.txt"),
   ("b/a.txt", "test/b/a.txt"), ("b/b.txt", "test/b/b.txt"),
   ("a.txt", "test/a.txt"), ("b.txt", "test/b.txt")]

/-- C5: on the six-file set, excludes=["*.txt"] with no includes keeps exactly
the four nested files (the glob matches only single-segment names);
includes=["a/*"] with no excludes keeps exactly the two files under a/; with
neither filter all six files are kept. -/
theorem build_file_list_scenario :
    buildFileList none (some ["*.txt"]) scenarioFiles
      = [("a/a.txt", "test/a/a.txt"), ("a/b.txt", "test/a/b.txt"),
         ("b/a.txt", "test/b/a.txt"), ("b/b.txt", "test/b/b.txt")] ∧
    buildFileList (some ["a/*"]) none scenarioFiles
      = [("a/a.txt", "test/a/a.txt"), ("a/b.txt", "test/a/b.txt")] ∧
    buildFileList none none scenarioFiles = scenarioFiles := by
  refine ⟨by decide, by decide, by decide⟩

/-! ### Chunked byte streams (encoder.rs and decoder.rs loops) -/

/-- Rust slice::chunks with positive chunk size, via a fuel argument so that
the definition evaluates inside the kernel; the wrapper below passes the
list length as fuel, which suffices whenever the chunk size is positive.
Rust panics on chunk size zero; callers model that check separately. -/
def chunksOfAux {α : Type} (n : Nat) : Nat → List α → List (List α)
  | _, [] => []
  | 0, _ :: _ => []
  | fuel + 1, a :: l => ((a :: l).take n) :: chunksOfAux n fuel ((a :: l).drop n)

/-- Rust slice::chunks for a positive chunk size. -/
def chunksOf {α : Type} (n : Nat) (l : List α) : List (List α) :=
  chunksOfAux n l.length l

lemma chunksOfAux_nil {α : Type} (n fuel : Nat) :
    chunksOfAux (α := α) n fuel [] = [] := by
  cases fuel <;> rfl

lemma chunksOfAux_fuel {α : Type} (n : Nat) (hn : 0 < n) :
    ∀ (fuel₁ fuel₂ : Nat) (l : List α), l.length ≤ fuel₁ → l.length ≤ fuel₂ →
      chunksOfAux n fuel₁ l = chunksOfAux n fuel₂ l := by
  intro fuel₁
  induction fuel₁ with
  | zero =>
      intro fuel₂ l h₁ _
      have : l = [] := List.length_eq_zero.mp (Nat.le_zero.mp h₁)
      subst this
      rw [chunksOfAux_nil, chunksOfAux_nil]
  | succ f ih =>
      intro fuel₂ l h₁ h₂
      cases l with
      | nil => rw [chunksOfAux_nil, chunksOfAux_nil]
      | cons a l' =>
          cases fuel₂ with
          | zero => exact absurd h₂ (by simp)
          | succ f₂ =>
              show ((a :: l').take n) :: chunksOfAux n f ((a :: l').drop n)
                  = ((a :: l').take n) :: chunksOfAux n f₂ ((a :: l').drop n)
              have hdrop : ((a :: l').drop n).length ≤ l'.length := by
                rw [List.length_drop]
                simp only [List.length_cons]
                omega
              have hf : ((a :: l').drop n).length ≤ f := by
                have := Nat.succ_le_succ_iff.mp (by simpa using h₁)
                omega
              have hf₂ : ((a :: l').drop n).length ≤ f₂ := by
                have := Nat.succ_le_succ_iff.mp (by simpa using h₂)
                omega
              rw [ih _ _ hf hf₂]

lemma chunksOf_nil {α : Type} (n : Nat) : chunksOf (α := α) n [] = [] := rfl

lemma chunksOf_cons {α : Type} (n : Nat) (hn : 0 < n) (a : α) (l : List α) :
    chunksOf n (a :: l) = ((a :: l).take n) :: chunksOf n ((a :: l).drop n) := by
  show chunksOfAux n (l.length + 1) (a :: l)
      = ((a :: l).take n) :: chunksOf n ((a :: l).drop n)
  cases hl : l.length with
  | zero =>
      show ((a :: l).take n) :: chunksOfAux n 0 ((a :: l).drop n) = _
      rw [chunksOf]
      rw [chunksOfAux_fuel n hn 0 ((a :: l).drop n).length ((a :: l).drop n)
        (by rw [List.length_drop]; simp [hl]; omega) (Nat.le_refl _)]
  | succ m =>
      show ((a :: l).take n) :: chunksOfAux n (m + 1) ((a :: l).drop n) = _
      rw [chunksOf]
      rw [chunksOfAux_fuel n hn (m + 1) ((a :: l).drop n).length ((a :: l).drop n)
        (by rw [List.length_drop]; simp [hl]; omega) (Nat.le_refl _)]

lemma chunksOf_length {α : Type} (n : Nat) (hn : 0 < n) (l : List α) :
    (chunksOf n l).length = (l.length + n - 1) / n := by
  cases l with
  | nil =>
      rw [chunksOf_nil]
      simp only [List.length_nil, Nat.zero_add]
      exact (Nat.div_eq_of_lt (by omega)).symm
  | cons a l' =>
      rw [chunksOf_cons n hn, List.length_cons,
        chunksOf_length n hn ((a :: l').drop n), List.length_drop]
      set m := (a :: l').length with hm
      have hm1 : 1 ≤ m := by rw [hm]; simp
      rcases le_or_lt m n with hle | hgt
      · have h0 : m - n = 0 := by omega
        rw [h0]
        have hL : (0 + n - 1) / n = 0 := Nat.div_eq_of_lt (by omega)
        have hR : (m + n - 1) / n = 1 := by
          apply Nat.div_eq_of_lt_le
          · omega
          · omega
        omega
      · have h1 : m - n + n - 1 = m - 1 := by omega
        have h2 : m + n - 1 = (m - 1) + n := by omega
        rw [h1, h2, Nat.add_div_right _ hn]
termination_by l.length
decreasing_by
  simp only [List.length_drop, List.length_cons]
  omega

lemma chunksOf_ne_nil {α : Type} (n : Nat) (hn : 0 < n) (l : List α) :
    ∀ ch ∈ chunksOf n l, ch ≠ [] := by
  cases l with
  | nil => intro ch h; rw [chunksOf_nil] at h; cases h
  | cons a l' =>
      intro ch h
      rw [chunksOf_cons n hn] at h
      rcases List.mem_cons.mp h with h | h
      · subst h
        cases n with
        | zero => exact absurd hn (by omega)
        | succ k => simp
      · exact chunksOf_ne_nil n hn ((a :: l').drop n) ch h
termination_by l.length
decreasing_by
  simp only [List.length_drop, List.length_cons]
  omega

/-- Byte stream written by the chunk loop of Encoder::encode_in_chunks
(src/encoder.rs lines 212-230): each chunk is written unless it is empty,
in which case the loop breaks. -/
def writeChunks {α : Type} : List (List α) → List α
  | [] => []
  | ch :: rest => if ch.isEmpty then [] else ch ++ writeChunks rest

lemma writeChunks_chunksOf {α : Type} (n : Nat) (hn : 0 < n) (l : List α) :
    writeChunks (chunksOf n l) = l := by
  cases l with
  | nil => rw [chunksOf_nil]; rfl
  | cons a l' =>
      rw [chunksOf_cons n hn, writeChunks]
      have hne : ((a :: l').take n).isEmpty = false := by
        cases n with
        | zero => exact absurd hn (by omega)
        | succ k => simp [List.take]
      rw [hne]
      simp only [Bool.false_eq_true, if_false]
      rw [writeChunks_chunksOf n hn ((a :: l').drop n)]
      exact List.take_append_drop n (a :: l')
termination_by l.length
decreasing_by
  simp only [List.length_drop, List.length_cons]
  omega

/-- Outcome of a Rust call that can complete, or hit a panic. -/
inductive RustOutcome (α : Type) where
  | ok (val : α)
  | panicked
  deriving DecidableEq

/-- Encoder::encode_in_chunks (src/encoder.rs lines 191-232), data part: the
serialized tar contents are written through the streaming compressor in
chunks of size total_chunks = contents.len() / 4096.  Rust's slice::chunks
panics when its chunk size is zero, which happens exactly when the contents
are shorter than 4096 bytes. -/
def encodeInChunks (contents : List Byte) : RustOutcome (List Byte) :=
  let totalChunks := contents.length / 4096
  if totalChunks = 0 then RustOutcome.panicked
  else RustOutcome.ok (writeChunks (chunksOf totalChunks contents))

set_option maxRecDepth 8192 in
/-- C7: Encoder::compress is not total: for a serialized tar payload shorter
than 4096 bytes — here the 1024-byte terminator-only payload produced by an
empty entry sequence — total_chunks is zero and the chunking step panics
instead of returning a value. -/
theorem encode_in_chunks_panics_on_small_payload :
    encodeInChunks (List.replicate 1024 0) = RustOutcome.panicked := by
  rfl

/-! ### Progress reporting (driver.rs UpdateStatus, encoder.rs phases) -/

/-- Entry from src/encoder.rs. -/
structure Entry where
  archivePath : String
  filePath : String

/-- UpdateStatus record from src/driver.rs. -/
structure UpdateStatus where
  brief : Option String := none
  detail : Option String := none
  increment : Option Nat := none
  total : Option Nat := none

/-- Progress records emitted by Encoder::add_entries (src/encoder.rs lines
122-146): a detail-only record, one record per entry carrying increment 1
and the entry count as total, and a closing detail-only record. -/
def addEntriesUpdates (d : Driver) (entries : List Entry) : List UpdateStatus :=
  { detail := some ("Archiving... (" ++ d.extension ++ ")") } ::
    ((entries.map fun e =>
      { detail := some e.archivePath, increment := some 1,
        total := some entries.length : UpdateStatus }) ++
     [{ detail := some "..." }])

/-- Declared determinate total of the add_entries phase (entries.len()). -/
def addEntriesDeclaredTotal (entries : List Entry) : Nat := entries.length

/-- Progress records of the chunk loop in Encoder::encode_in_chunks: one
record is emitted before each chunk is inspected; the loop breaks after the
record when the chunk is empty. -/
def chunkLoopUpdates (declaredTotal : Nat) : List (List Byte) → List UpdateStatus
  | [] => []
  | ch :: rest =>
      { increment := some 1, total := some declaredTotal } ::
        (if ch.isEmpty then [] else chunkLoopUpdates declaredTotal rest)

/-- Declared determinate total of the chunked compression phase
(contents.len() / total_chunks from src/encoder.rs line 218). -/
def chunkDeclaredTotal (contents : List Byte) : Nat :=
  contents.length / (contents.length / 4096)

/-- Progress records emitted by Encoder::encode_in_chunks for a driver and
serialized tar contents (meaningful when total_chunks is positive; with
total_chunks zero the loop panics before any chunk record, see C7). -/
def encodeInChunksUpdates (d : Driver) (contents : List Byte) : List UpdateStatus :=
  { detail := some ("Compressing (" ++ d.extension ++ ")") } ::
    chunkLoopUpdates (chunkDeclaredTotal contents)
      (chunksOf (contents.length / 4096) contents)

/-- Cumulative sum of the increment values of a run of progress records. -/
def updatesCumSum (updates : List UpdateStatus) : Nat :=
  (updates.map fun u => u.increment.getD 0).sum

/-- Cumulative sum of the increment values of the first i progress records. -/
def updatesCumSumTo (updates : List UpdateStatus) (i : Nat) : Nat :=
  updatesCumSum (updates.take i)

lemma sum_take_mono (l : List Nat) : ∀ i j, i ≤ j → (l.take i).sum ≤ (l.take j).sum := by
  induction l with
  | nil => intro i j _; simp
  | cons a l ih =>
      intro i j hij
      cases i with
      | zero => simp
      | succ i' =>
          cases j with
          | zero => omega
          | succ j' =>
              rw [List.take_succ_cons, List.take_succ_cons, List.sum_cons, List.sum_cons]
              exact Nat.add_le_add_left (ih i' j' (Nat.succ_le_succ_iff.mp hij)) a

lemma updatesCumSumTo_mono (updates : List UpdateStatus) (i j : Nat) (h : i ≤ j) :
    updatesCumSumTo updates i ≤ updatesCumSumTo updates j := by
  unfold updatesCumSumTo updatesCumSum
  rw [List.map_take, List.map_take]
  exact sum_take_mono _ i j h

lemma updatesCumSum_chunkLoop (t : Nat) (chunks : List (List Byte))
    (h : ∀ ch ∈ chunks, ch ≠ []) :
    updatesCumSum (chunkLoopUpdates t chunks) = chunks.length := by
  induction chunks with
  | nil => rfl
  | cons ch rest ih =>
      have hch : ch.isEmpty = false := by
        have := h ch (List.mem_cons_self ch rest)
        cases ch with
        | nil => exact absurd rfl this
        | cons x xs => rfl
      rw [chunkLoopUpdates, hch]
      simp only [Bool.false_eq_true, if_false]
      rw [updatesCumSum, List.map_cons, List.sum_cons]
      rw [updatesCumSum] at ih
      rw [ih fun c hc => h c (List.mem_cons_of_mem ch hc)]
      simp
      omega

lemma sum_map_one {α : Type} (l : List α) : (l.map fun _ => (1 : Nat)).sum = l.length := by
  induction l with
  | nil => rfl
  | cons a l ih => simp [ih]; omega

lemma updatesCumSum_addEntries (d : Driver) (entries : List Entry) :
    updatesCumSum (addEntriesUpdates d entries) = entries.length := by
  unfold addEntriesUpdates updatesCumSum
  rw [List.map_cons, List.sum_cons, List.map_append, List.sum_append]
  simp only [Option.getD_none, Nat.zero_add, List.map_map]
  have h1 : (entries.map
      ((fun u : UpdateStatus => u.increment.getD 0) ∘ fun e =>
        { detail := some e.archivePath, increment := some 1,
          total := some entries.length : UpdateStatus })) =
      entries.map fun _ => (1 : Nat) := by
    apply List.map_congr_left
    intro e _
    rfl
  rw [h1, sum_map_one]
  simp

lemma updatesCumSum_encodeInChunks (d : Driver) (contents : List Byte)
    (h : 0 < contents.length / 4096) :
    updatesCumSum (encodeInChunksUpdates d contents)
      = (contents.length + contents.length / 4096 - 1) / (contents.length / 4096) := by
  unfold encodeInChunksUpdates
  rw [updatesCumSum, List.map_cons, List.sum_cons]
  simp only [Option.getD_none, Nat.zero_add]
  rw [← updatesCumSum]
  rw [updatesCumSum_chunkLoop _ _ (chunksOf_ne_nil _ h contents)]
  exact chunksOf_length _ h contents

lemma mul_add_sub_one_div (tc k r : Nat) (htc : 0 < tc) (hr : r < tc) :
    (r = 0 → (tc * k + r + tc - 1) / tc = k) ∧
    (0 < r → (tc * k + r + tc - 1) / tc = k + 1) := by
  constructor
  · intro h0
    subst h0
    have he : tc * k + 0 + tc - 1 = tc * k + (tc - 1) := by omega
    rw [he, Nat.mul_add_div htc, Nat.div_eq_of_lt (by omega)]
    omega
  · intro hr0
    have hms : tc * (k + 1) = tc * k + tc := Nat.mul_succ tc k
    have he : tc * k + r + tc - 1 = tc * (k + 1) + (r - 1) := by omega
    rw [he, Nat.mul_add_div htc, Nat.div_eq_of_lt (by omega)]

lemma ceil_div_cases (len tc : Nat) (htc : 0 < tc) :
    (len % tc = 0 → (len + tc - 1) / tc = len / tc) ∧
    (len % tc ≠ 0 → (len + tc - 1) / tc = len / tc + 1) := by
  obtain ⟨k, r, hlen, hrlt, hdiv, hmod⟩ :
      ∃ k r, len = tc * k + r ∧ r < tc ∧ len / tc = k ∧ len % tc = r :=
    ⟨len / tc, len % tc, (Nat.div_add_mod len tc).symm, Nat.mod_lt _ htc, rfl, rfl⟩
  rw [hdiv, hmod]
  have hrw : len + tc - 1 = tc * k + r + tc - 1 := by omega
  rw [hrw]
  obtain ⟨hz, hp⟩ := mul_add_sub_one_div tc k r htc hrlt
  exact ⟨hz, fun hne => hp (Nat.pos_of_ne_zero hne)⟩

/-- C8 counterexample: for the chunked compression phase over a 8193-byte
serialized tar payload, total_chunks is 2, the loop emits one increment per
chunk for a final cumulative sum of ceil(8193 / 2) = 4097, while the
declared determinate total is floor(8193 / 2) = 4096; the final cumulative
sum therefore differs from the declared total. -/
theorem chunk_phase_final_sum_misses_declared_total :
    updatesCumSum (encodeInChunksUpdates Driver.Gzip (List.replicate 8193 0))
      ≠ chunkDeclaredTotal (List.replicate 8193 0) ∧
    updatesCumSum (encodeInChunksUpdates Driver.Gzip (List.replicate 8193 0)) = 4097 ∧
    chunkDeclaredTotal (List.replicate 8193 0) = 4096 := by
  have hlen : (List.replicate 8193 (0 : Byte)).length = 8193 := List.length_replicate 8193 0
  have hpos : 0 < (List.replicate 8193 (0 : Byte)).length / 4096 := by
    rw [hlen]
    decide
  have hsum := updatesCumSum_encodeInChunks Driver.Gzip (List.replicate 8193 0) hpos
  rw [hlen] at hsum
  have htot : chunkDeclaredTotal (List.replicate 8193 0) = 4096 := by
    unfold chunkDeclaredTotal
    rw [hlen]
  refine ⟨?_, by rw [hsum], htot⟩
  rw [hsum, htot]
  decide

/-- C8 amended: within each phase the cumulative increment sum is
non-decreasing, and the add_entries phase's final cumulative sum equals its
declared total (the entry count); the chunked compression phase (when
total_chunks = len / 4096 is positive) emits one increment per chunk, so its
final cumulative sum is the ceiling (len + total_chunks - 1) / total_chunks,
which equals the declared total len / total_chunks exactly when total_chunks
divides len, and exceeds it by one otherwise. -/
theorem progress_cumulative_sums (d : Driver) (entries : List Entry)
    (contents : List Byte) (h : 0 < contents.length / 4096) :
    (∀ i j, i ≤ j → updatesCumSumTo (addEntriesUpdates d entries) i
        ≤ updatesCumSumTo (addEntriesUpdates d entries) j) ∧
    (∀ i j, i ≤ j → updatesCumSumTo (encodeInChunksUpdates d contents) i
        ≤ updatesCumSumTo (encodeInChunksUpdates d contents) j) ∧
    updatesCumSum (addEntriesUpdates d entries) = addEntriesDeclaredTotal entries ∧
    updatesCumSum (encodeInChunksUpdates d contents)
      = (contents.length + contents.length / 4096 - 1) / (contents.length / 4096) ∧
    (contents.length % (contents.length / 4096) = 0 →
      updatesCumSum (encodeInChunksUpdates d contents) = chunkDeclaredTotal contents) ∧
    (contents.length % (contents.length / 4096) ≠ 0 →
      updatesCumSum (encodeInChunksUpdates d contents) = chunkDeclaredTotal contents + 1) := by
  obtain ⟨hz, hp⟩ := ceil_div_cases contents.length (contents.length / 4096) h
  refine ⟨fun i j hij => updatesCumSumTo_mono _ i j hij,
    fun i j hij => updatesCumSumTo_mono _ i j hij,
    updatesCumSum_addEntries d entries,
    updatesCumSum_encodeInChunks d contents h, ?_, ?_⟩
  · intro h0
    rw [updatesCumSum_encodeInChunks d contents h, chunkDeclaredTotal]
    exact hz h0
  · intro h0
    rw [updatesCumSum_encodeInChunks d contents h, chunkDeclaredTotal]
    exact hp h0

set_option maxRecDepth 16384 in
/-- Witness for the amended C8 theorem at a concrete driver, entry list, and
4096-byte payload. -/
theorem progress_cumulative_sums_witness :
    0 < (List.replicate 4096 (0 : Byte)).length / 4096 ∧
    updatesCumSum (addEntriesUpdates Driver.Gzip [⟨"a.txt", "tmp/a.txt"⟩])
      = addEntriesDeclaredTotal [⟨"a.txt", "tmp/a.txt"⟩] :=
  ⟨by rw [List.length_replicate]; decide,
    (progress_cumulative_sums Driver.Gzip [⟨"a.txt", "tmp/a.txt"⟩]
      (List.replicate 4096 0) (by rw [List.length_replicate]; decide)).2.2.1⟩

/-! ### Filesystem model and archive data -/

/-- Filesystem state as an association list from file path to contents; the
most recent write for a path is the first entry with that key, and writes
keep keys unique. -/
abbrev FS := List (Path × List Byte)

/-- Write (create or truncate-and-write) a file. -/
def fsWrite (fs : FS) (p : Path) (data : List Byte) : FS :=
  (p, data) :: fs.filter fun e => e.1 != p

/-- Remove a file. -/
def fsRemove (fs : FS) (p : Path) : FS :=
  fs.filter fun e => e.1 != p

/-- Contents of the file at a path, when present. -/
def fsGet (fs : FS) (p : Path) : Option (List Byte) :=
  (fs.find? fun e => e.1 == p).map fun e => e.2

/-- Filesystem operations performed by the archiver, in program order. -/
inductive FsOp where
  | mkdirAll (dir : Path)
  | writeFile (path : Path) (data : List Byte)
  | removeFile (path : Path)
  | createFile (path : Path)
  | openRead (path : Path)
  | metadata (path : Path)
  deriving DecidableEq

/-- Effect of one operation on the file map: directory creation and reads do
not change file contents. -/
def applyOp (fs : FS) : FsOp → FS
  | .writeFile p d => fsWrite fs p d
  | .removeFile p => fsRemove fs p
  | .createFile p => fsWrite fs p []
  | _ => fs

/-- Effect of an operation sequence on the file map. -/
def applyOps (fs : FS) (ops : List FsOp) : FS := ops.foldl applyOp fs

/-- Error taxonomy of the archiver (section 7 of the specification). -/
inductive ArchiveError where
  | unsupportedFormat (filename : String)
  | digestMismatch (expected actual : String)
  | codecFailure (message : String)
  | entryNotFound (name : Path)
  deriving DecidableEq

/-- Modelled from the spec: the external codec capabilities the archiver
consumes as opaque collaborators — the streaming byte compressor and
decompressor of the selected format, the tar container serializer (the
in-memory tar builder) and deserializer (tar unpack, yielding the files it
would materialize), and the content hash.  The round-trip theorems take
these as parameters together with their documented contracts. -/
structure Codecs where
  compress : List Byte → List Byte
  decompress : List Byte → List Byte
  tarPack : List (Path × List Byte) → List Byte
  tarUnpack : List Byte → Except String (List (Path × List Byte))
  hash : List Byte → String

/-- Zip archive entry as presented by the external zip crate: a name, an
is-file flag, and the stored bytes. -/
structure ZipEntry where
  name : Path
  isFile : Bool
  data : List Byte
  deriving DecidableEq

/-- On-disk archive produced by Encoder::compress: a compressed byte stream
for the tar-backed formats, or a zip container holding its entries. -/
inductive ArchiveData where
  | stream (bytes : List Byte)
  | zipArchive (entries : List ZipEntry)
  deriving DecidableEq

/-! ### decoder.rs reading loops -/

/-- Result of one read call of the sequential decompressing reader. -/
abbrev ReadResult := Except String (List Byte)

/-- Read loop of Decoder::extract_to_tar_bytes (src/decoder.rs lines
100-114): while let Ok(bytes_read) = decoder.read(..) — a read of zero bytes
ends the loop, a read error also ends the loop (silently), otherwise the
bytes are appended to the result. -/
def readLoop : List ReadResult → List Byte
  | [] => []
  | Except.ok [] :: _ => []
  | Except.ok chunk :: rest => chunk ++ readLoop rest
  | Except.error _ :: _ => []

/-- Decoder::extract_to_tar_bytes (src/decoder.rs lines 77-117): the
function returns Ok(accumulated bytes) on every path; no read failure is
converted into an error value. -/
def extractToTarBytes (reads : List ReadResult) : Except ArchiveError (List Byte) :=
  Except.ok (readLoop reads)

/-- C3: the decompressor's rejection is not propagated — a read error merely
ends the read loop, so extract_to_tar_bytes returns Ok with the bytes
accumulated so far (here a partial prefix), and in general it never returns
an error at all, contradicting the claim that a corrupt or truncated stream
fails with a codec decode failure. -/
theorem extract_to_tar_bytes_swallows_read_errors :
    extractToTarBytes [Except.ok [1, 2, 3], Except.error "invalid gzip header"]
      = Except.ok [1, 2, 3] ∧
    ∀ (reads : List ReadResult) (e : ArchiveError),
      extractToTarBytes reads ≠ Except.error e := by
  refine ⟨rfl, fun reads e h => ?_⟩
  rw [extractToTarBytes] at h
  cases h

/-- Reads served to the loop by a decompressed byte stream: the 8192-byte
buffer yields full chunks until the stream is exhausted, then zero. -/
def readResultsOf (bytes : List Byte) : List ReadResult :=
  (chunksOf 8192 bytes).map Except.ok

lemma readLoop_readResultsOf (bytes : List Byte) :
    readLoop (readResultsOf bytes) = bytes := by
  cases bytes with
  | nil => rfl
  | cons a l =>
      rw [readResultsOf, chunksOf_cons 8192 (by omega), List.map_cons]
      have htake : (a :: l).take 8192 = a :: l.take 8191 := rfl
      rw [htake]
      show (a :: l.take 8191) ++
          readLoop ((chunksOf 8192 ((a :: l).drop 8192)).map Except.ok) = a :: l
      have hrec := readLoop_readResultsOf ((a :: l).drop 8192)
      rw [readResultsOf] at hrec
      rw [hrec, ← htake]
      exact List.take_append_drop 8192 (a :: l)
termination_by bytes.length
decreasing_by
  simp only [List.length_drop, List.length_cons]
  omega

/-! ### encoder.rs: the encode pipeline at the data level -/

/-- Encoder::new + Encoder::add_file for every entry + Encoder::compress
(src/encoder.rs), at the data level: entries carry their source contents.
For the tar-backed formats every entry is appended to the in-memory tar
builder, whose serialized bytes are then chunk-written through the streaming
compressor (gzip, bzip2, xz) or written to the temporary tar file and handed
to the 7z codec; for zip each entry is written directly into the zip
container. -/
def encode (c : Codecs) (d : Driver) (entries : List (Path × List Byte)) :
    RustOutcome ArchiveData :=
  match d with
  | .Zip => RustOutcome.ok (ArchiveData.zipArchive
      (entries.map fun e => { name := e.1, isFile := true, data := e.2 }))
  | .SevenZ => RustOutcome.ok (ArchiveData.stream (c.compress (c.tarPack entries)))
  | _ =>
      match encodeInChunks (c.tarPack entries) with
      | .panicked => RustOutcome.panicked
      | .ok written => RustOutcome.ok (ArchiveData.stream (c.compress written))

/-- Encoder::new (src/encoder.rs lines 77-120): resolve the driver from the
output filename suffix or fail with an unsupported-format error before any
filesystem operation; the zip driver creates the output file immediately,
the tar-backed drivers only allocate an in-memory builder. -/
def encoderNewRun (outputDirectory : Path) (outputFilename : String) :
    List FsOp × Except ArchiveError Driver :=
  match Driver.fromFilename outputFilename with
  | none => ([], Except.error (ArchiveError.unsupportedFormat outputFilename))
  | some d =>
      match d with
      | .Zip => ([FsOp.createFile (outputDirectory ++ [outputFilename])], Except.ok d)
      | _ => ([], Except.ok d)

/-- Forward-slash rendering of a path, as used for suffix detection. -/
def pathString (p : Path) : String := String.intercalate "/" p

/-- Decoder::new (src/decoder.rs lines 35-75): resolve the driver from the
input path suffix or fail with an unsupported-format error before any
filesystem operation; on success the input file's metadata is read and the
file is opened (for zip this open also reads the archive index). -/
def decoderNewRun (inputPath : Path) : List FsOp × Except ArchiveError Driver :=
  match Driver.fromFilename (pathString inputPath) with
  | none => ([], Except.error (ArchiveError.unsupportedFormat (pathString inputPath)))
  | some d => ([FsOp.metadata inputPath, FsOp.openRead inputPath], Except.ok d)

/-- C9: when the filename suffix maps to no driver, Encoder::new and
Decoder::new fail with an unsupported-format error and perform no filesystem
operation at all — no output file is created and no input file is opened. -/
theorem new_unsupported_format_before_io (outputDirectory : Path)
    (outputFilename : String) (inputPath : Path)
    (hout : Driver.fromFilename outputFilename = none)
    (hin : Driver.fromFilename (pathString inputPath) = none) :
    encoderNewRun outputDirectory outputFilename
      = ([], Except.error (ArchiveError.unsupportedFormat outputFilename)) ∧
    decoderNewRun inputPath
      = ([], Except.error (ArchiveError.unsupportedFormat (pathString inputPath))) := by
  constructor
  · rw [encoderNewRun, hout]
  · rw [decoderNewRun, hin]

/-- Witness for C9 at the unsupported filename of the specification. -/
theorem new_unsupported_format_before_io_witness :
    Driver.fromFilename "x.unknownext" = none ∧
    encoderNewRun ["out"] "x.unknownext"
      = ([], Except.error (ArchiveError.unsupportedFormat "x.unknownext")) ∧
    decoderNewRun ["x.unknownext"]
      = ([], Except.error (ArchiveError.unsupportedFormat (pathString ["x.unknownext"]))) :=
  ⟨by decide,
    (new_unsupported_format_before_io ["out"] "x.unknownext" ["x.unknownext"]
      (by decide) (by decide)).1,
    (new_unsupported_format_before_io ["out"] "x.unknownext" ["x.unknownext"]
      (by decide) (by decide)).2⟩

/-! ### decoder.rs: the zip branch -/

/-- ZipArchive::by_name of the external zip crate: the entry carrying the
requested name. -/
def zipByName (entries : List ZipEntry) (n : Path) : Option ZipEntry :=
  entries.find? fun e => e.name == n

/-- Manual per-entry pass of the zip branch for one resolved entry
(src/decoder.rs lines 164-198): a plain-file entry has its parent directory
created and its bytes written at output_directory/entry_name; any other
entry is skipped. -/
def zipManualStep (outDir : Path) (e : ZipEntry) : List FsOp :=
  if e.isFile then
    [FsOp.mkdirAll ((outDir ++ e.name).dropLast),
     FsOp.writeFile (outDir ++ e.name) e.data]
  else []

/-- Manual pass of the zip branch over the up-front name enumeration: each
name is resolved with by_name (an unresolvable name is an error) and then
handled by zipManualStep. -/
def zipManualRun (entries : List ZipEntry) (outDir : Path) :
    List Path → Except ArchiveError (List FsOp)
  | [] => Except.ok []
  | n :: rest =>
      match zipByName entries n with
      | none => Except.error (ArchiveError.entryNotFound n)
      | some e =>
          match zipManualRun entries outDir rest with
          | Except.error err => Except.error err
          | Except.ok restOps => Except.ok (zipManualStep outDir e ++ restOps)

/-- Modelled from the spec: ZipArchive::extract, the archive's own
bulk-extract operation, materializes every entry under the output directory
— directories as directories, plain files with their bytes and parents. -/
def zipBulkOps (entries : List ZipEntry) (outDir : Path) : List FsOp :=
  entries.flatMap fun e =>
    if e.isFile then
      [FsOp.mkdirAll ((outDir ++ e.name).dropLast),
       FsOp.writeFile (outDir ++ e.name) e.data]
    else [FsOp.mkdirAll (outDir ++ e.name)]

/-- Zip branch of Decoder::extract (src/decoder.rs lines 151-205): enumerate
all entry names up front, run the manual per-entry pass over them, then
invoke the bulk-extract operation against the same output directory. -/
def zipBranchRun (entries : List ZipEntry) (outDir : Path) :
    Except ArchiveError (List FsOp) :=
  match zipManualRun entries outDir (entries.map fun e => e.name) with
  | Except.error err => Except.error err
  | Except.ok manualOps => Except.ok (manualOps ++ zipBulkOps entries outDir)

/-- Spec-side reading of C10: after the up-front enumeration, each entry
whose type is a plain file has its bytes written to
output_directory/entry_name with parents created and other entries are
skipped, in archive order; afterwards the bulk-extract operation runs
against the same output directory. -/
def zipBranchSpecOps (entries : List ZipEntry) (outDir : Path) : List FsOp :=
  ((entries.filter fun e => e.isFile).flatMap fun e =>
    [FsOp.mkdirAll ((outDir ++ e.name).dropLast),
     FsOp.writeFile (outDir ++ e.name) e.data])
  ++ zipBulkOps entries outDir

lemma zipByName_self (entries : List ZipEntry) (e : ZipEntry)
    (hmem : e ∈ entries) (hnd : (entries.map fun z => z.name).Nodup) :
    zipByName entries e.name = some e := by
  induction entries with
  | nil => cases hmem
  | cons a rest ih =>
      rcases List.mem_cons.mp hmem with h | h
      · subst h
        rw [zipByName, List.find?_cons_of_pos _ (by simp)]
      · have hne : a.name ≠ e.name := by
          rw [List.map_cons, List.nodup_cons] at hnd
          intro hcontra
          exact hnd.1 (hcontra ▸ List.mem_map_of_mem (fun z => z.name) h)
        rw [zipByName, List.find?_cons_of_neg _ (by simp [hne])]
        rw [List.map_cons, List.nodup_cons] at hnd
        exact ih h hnd.2

lemma zipManualRun_ok (entries : List ZipEntry) (outDir : Path)
    (hnd : (entries.map fun z => z.name).Nodup) :
    ∀ (sub : List ZipEntry), (∀ e ∈ sub, e ∈ entries) →
      zipManualRun entries outDir (sub.map fun e => e.name)
        = Except.ok (sub.flatMap (zipManualStep outDir)) := by
  intro sub
  induction sub with
  | nil => intro _; rfl
  | cons e rest ih =>
      intro hsub
      rw [List.map_cons, zipManualRun,
        zipByName_self entries e (hsub e (List.mem_cons_self e rest)) hnd,
        ih fun x hx => hsub x (List.mem_cons_of_mem e hx)]
      rw [List.flatMap_cons]

lemma flatMap_step_eq_filter (outDir : Path) (entries : List ZipEntry) :
    entries.flatMap (zipManualStep outDir)
      = (entries.filter fun e => e.isFile).flatMap fun e =>
          [FsOp.mkdirAll ((outDir ++ e.name).dropLast),
           FsOp.writeFile (outDir ++ e.name) e.data] := by
  induction entries with
  | nil => rfl
  | cons e rest ih =>
      rw [List.flatMap_cons]
      by_cases hf : e.isFile
      · rw [List.filter_cons_of_pos (by simp [hf]), List.flatMap_cons, ih]
        rw [zipManualStep, if_pos hf]
      · rw [List.filter_cons_of_neg (by simp [hf]), ih]
        rw [zipManualStep, if_neg hf]
        rfl

/-- C10: for a zip archive (with the well-defined by_name resolution of
distinct entry names), Decoder::extract enumerates all entry names, writes
the bytes of every plain-file entry to output_directory/entry_name with
parent directories created while skipping non-file entries, and after this
manual pass additionally invokes the archive's bulk-extract operation
against the same output directory. -/
theorem zip_branch_manual_then_bulk (entries : List ZipEntry) (outDir : Path)
    (hnd : (entries.map fun z => z.name).Nodup) :
    zipBranchRun entries outDir = Except.ok (zipBranchSpecOps entries outDir) := by
  rw [zipBranchRun, zipManualRun_ok entries outDir hnd entries fun e he => he]
  rw [zipBranchSpecOps, flatMap_step_eq_filter]

/-- Witness for C10 on a two-entry archive holding one plain file and one
directory entry. -/
theorem zip_branch_manual_then_bulk_witness :
    (([{ name := ["d", "f.txt"], isFile := true, data := [7, 8] },
       { name := ["d"], isFile := false, data := [] }] : List ZipEntry).map
        fun z => z.name).Nodup ∧
    zipBranchRun
        [{ name := ["d", "f.txt"], isFile := true, data := [7, 8] },
         { name := ["d"], isFile := false, data := [] }] ["out"]
      = Except.ok (zipBranchSpecOps
          [{ name := ["d", "f.txt"], isFile := true, data := [7, 8] },
           { name := ["d"], isFile := false, data := [] }] ["out"]) :=
  ⟨by decide,
    zip_branch_manual_then_bulk
      [{ name := ["d", "f.txt"], isFile := true, data := [7, 8] },
       { name := ["d"], isFile := false, data := [] }] ["out"] (by decide)⟩

/-! ### decoder.rs: the full extract pipeline -/

/-- Modelled from the spec: tar::Archive::unpack of the external tar crate
materializes every file of the tar stream under the output directory,
creating parent directories. -/
def tarUnpackOps (files : List (Path × List Byte)) (outDir : Path) : List FsOp :=
  files.flatMap fun f =>
    [FsOp.mkdirAll ((outDir ++ f.1).dropLast), FsOp.writeFile (outDir ++ f.1) f.2]

/-- Final directory walk of Decoder::extract (src/decoder.rs lines 289-304):
every non-directory entry under the output directory, with the output
directory prefix stripped. -/
def walkRelative (outDir : Path) (fs : FS) : List Path :=
  (fs.filter fun e => outDir.isPrefixOf e.1).map fun e => e.1.drop outDir.length

/-- Tail of the extract pipeline shared by the tar-backed formats: unpack
the tar bytes onto the output directory (after any preceding operations of
the format branch) and walk the output directory. -/
def finishTar (c : Codecs) (tarBytes : List Byte) (pre : List FsOp)
    (outDir : Path) (fs : FS) : List FsOp × Except ArchiveError (List Path) :=
  match c.tarUnpack tarBytes with
  | Except.error msg => (pre, Except.error (ArchiveError.codecFailure msg))
  | Except.ok files =>
      let ops := pre ++ tarUnpackOps files outDir
      (ops, Except.ok (walkRelative outDir (applyOps fs ops)))

/-- Format dispatch of Decoder::extract (src/decoder.rs lines 143-304):
gzip/bzip2/xz stream-decompress into tar bytes through the read loop; zip
runs the manual pass and the bulk extract; 7z decompresses into the output
directory, which materializes the temporary tar file, whose bytes are read
back before the file is removed; every tar-bytes branch then unpacks and
every branch ends with the directory walk. -/
def extractDispatch (c : Codecs) (d : Driver) (archive : ArchiveData)
    (outDir : Path) (fs : FS) : List FsOp × Except ArchiveError (List Path) :=
  match d, archive with
  | .Zip, ArchiveData.zipArchive entries =>
      match zipBranchRun entries outDir with
      | Except.error e => ([], Except.error e)
      | Except.ok ops => (ops, Except.ok (walkRelative outDir (applyOps fs ops)))
  | .SevenZ, ArchiveData.stream bytes =>
      let tarBytes := c.decompress bytes
      finishTar c tarBytes
        [FsOp.writeFile (outDir ++ [sevenZTarFilename]) tarBytes,
         FsOp.removeFile (outDir ++ [sevenZTarFilename])] outDir fs
  | _, ArchiveData.stream bytes =>
      match extractToTarBytes (readResultsOf (c.decompress bytes)) with
      | Except.error e => ([], Except.error e)
      | Except.ok tarBytes => finishTar c tarBytes [] outDir fs
  | _, _ => ([], Except.error (ArchiveError.codecFailure "archive shape mismatch"))

/-- Decoder::extract (src/decoder.rs lines 119-311): when an expected digest
was supplied, the actual digest of the input file bytes is computed first
and a mismatch aborts with an error carrying both values before any other
action; otherwise the format dispatch runs.  The first component is the
sequence of filesystem operations performed. -/
def extractRun (c : Codecs) (d : Driver) (inputBytes : List Byte)
    (archive : ArchiveData) (expected : Option String) (outDir : Path)
    (fs : FS) : List FsOp × Except ArchiveError (List Path) :=
  match expected with
  | some digest =>
      if c.hash inputBytes = digest then extractDispatch c d archive outDir fs
      else ([], Except.error (ArchiveError.digestMismatch digest (c.hash inputBytes)))
  | none => extractDispatch c d archive outDir fs

/-- C2: with a caller-supplied expected digest that differs from the digest
of the input file's bytes, Decoder::extract returns a digest-mismatch error
carrying the expected and the actual value, performs no filesystem
operation, and leaves the filesystem exactly as it was. -/
theorem extract_digest_mismatch_mutates_nothing (c : Codecs) (d : Driver)
    (inputBytes : List Byte) (archive : ArchiveData) (expected : String)
    (outDir : Path) (fs : FS) (hneq : c.hash inputBytes ≠ expected) :
    extractRun c d inputBytes archive (some expected) outDir fs
      = ([], Except.error (ArchiveError.digestMismatch expected (c.hash inputBytes))) ∧
    applyOps fs (extractRun c d inputBytes archive (some expected) outDir fs).1 = fs := by
  have h : extractRun c d inputBytes archive (some expected) outDir fs
      = ([], Except.error (ArchiveError.digestMismatch expected (c.hash inputBytes))) := by
    rw [extractRun, if_neg hneq]
  exact ⟨h, by rw [h]; rfl⟩

/-- Witness for C2 with a concrete hash disagreeing with the expectation. -/
theorem extract_digest_mismatch_mutates_nothing_witness :
    (({ compress := id, decompress := id, tarPack := fun _ => [],
        tarUnpack := fun _ => Except.ok [], hash := fun _ => "0a" } : Codecs).hash
      [1, 2] ≠ "ff") ∧
    extractRun
        { compress := id, decompress := id, tarPack := fun _ => [],
          tarUnpack := fun _ => Except.ok [], hash := fun _ => "0a" }
        Driver.Gzip [1, 2] (ArchiveData.stream [1, 2]) (some "ff") ["out"]
        [(["out", "old.txt"], [5])]
      = ([], Except.error (ArchiveError.digestMismatch "ff" "0a")) :=
  ⟨by decide,
    (extract_digest_mismatch_mutates_nothing
      { compress := id, decompress := id, tarPack := fun _ => [],
        tarUnpack := fun _ => Except.ok [], hash := fun _ => "0a" }
      Driver.Gzip [1, 2] (ArchiveData.stream [1, 2]) "ff" ["out"]
      [(["out", "old.txt"], [5])] (by decide)).1⟩

/-! ### Filesystem lookup lemmas -/

lemma fsGet_fsWrite_self (fs : FS) (p : Path) (d : List Byte) :
    fsGet (fsWrite fs p d) p = some d := by
  rw [fsGet, fsWrite, List.find?_cons_of_pos _ (by simp)]
  rfl

lemma find?_filter_ne (fs : FS) (k q : Path) (h : q ≠ k) :
    ((fs.filter fun e => e.1 != k).find? fun e => e.1 == q)
      = fs.find? fun e => e.1 == q := by
  induction fs with
  | nil => rfl
  | cons a rest ih =>
      rw [List.filter_cons]
      by_cases hq : a.1 = q
      · have hak : (a.1 != k) = true := by
          simp only [bne_iff_ne]
          rw [hq]
          exact h
        rw [if_pos hak, List.find?_cons_of_pos _ (by simp [hq]),
          List.find?_cons_of_pos _ (by simp [hq])]
      · by_cases hk : a.1 = k
        · have hak : ¬ ((a.1 != k) = true) := by simp [hk]
          rw [if_neg hak, List.find?_cons_of_neg _ (by simp [hq]), ih]
        · have hak : (a.1 != k) = true := by
            simp only [bne_iff_ne]
            exact hk
          rw [if_pos hak, List.find?_cons_of_neg _ (by simp [hq]),
            List.find?_cons_of_neg _ (by simp [hq]), ih]

lemma fsGet_fsWrite_ne (fs : FS) (p q : Path) (d : List Byte) (h : q ≠ p) :
    fsGet (fsWrite fs p d) q = fsGet fs q := by
  rw [fsGet, fsWrite,
    List.find?_cons_of_neg _ (by simp only [beq_iff_eq]; exact Ne.symm h),
    find?_filter_ne fs p q h, fsGet]

lemma fsGet_fsRemove_ne (fs : FS) (p q : Path) (h : q ≠ p) :
    fsGet (fsRemove fs p) q = fsGet fs q := by
  rw [fsGet, fsRemove, find?_filter_ne fs p q h, fsGet]

/-- Operations that change the file stored at a given key. -/
def opWritesKey (op : FsOp) (k : Path) : Prop :=
  match op with
  | .writeFile p _ => p = k
  | .removeFile p => p = k
  | .createFile p => p = k
  | _ => False

lemma fsGet_applyOp_untouched (fs : FS) (op : FsOp) (k : Path)
    (h : ¬ opWritesKey op k) :
    fsGet (applyOp fs op) k = fsGet fs k := by
  cases op with
  | writeFile p dt => exact fsGet_fsWrite_ne fs p k dt fun hc => h hc.symm
  | removeFile p => exact fsGet_fsRemove_ne fs p k fun hc => h hc.symm
  | createFile p => exact fsGet_fsWrite_ne fs p k [] fun hc => h hc.symm
  | mkdirAll p => rfl
  | openRead p => rfl
  | metadata p => rfl

lemma fsGet_applyOps_untouched (ops : List FsOp) :
    ∀ (fs : FS) (k : Path), (∀ op ∈ ops, ¬ opWritesKey op k) →
      fsGet (applyOps fs ops) k = fsGet fs k := by
  induction ops with
  | nil => intro fs k _; rfl
  | cons op rest ih =>
      intro fs k h
      have hstep : applyOps fs (op :: rest) = applyOps (applyOp fs op) rest := rfl
      rw [hstep, ih (applyOp fs op) k fun o ho => h o (List.mem_cons_of_mem op ho),
        fsGet_applyOp_untouched fs op k (h op (List.mem_cons_self op rest))]

lemma applyOps_append (fs : FS) (l₁ l₂ : List FsOp) :
    applyOps fs (l₁ ++ l₂) = applyOps (applyOps fs l₁) l₂ := by
  rw [applyOps, applyOps, applyOps, List.foldl_append]

lemma tarUnpackOps_mem (files : List (Path × List Byte)) (outDir : Path)
    (op : FsOp) (hop : op ∈ tarUnpackOps files outDir) :
    (∃ dpath, op = FsOp.mkdirAll dpath) ∨
    ∃ f ∈ files, op = FsOp.writeFile (outDir ++ f.1) f.2 := by
  rw [tarUnpackOps] at hop
  rcases List.mem_flatMap.mp hop with ⟨f, hf, hmem⟩
  rcases List.mem_cons.mp hmem with h | h
  · exact Or.inl ⟨(outDir ++ f.1).dropLast, h⟩
  · rcases List.mem_cons.mp h with h2 | h2
    · exact Or.inr ⟨f, hf, h2⟩
    · cases h2

lemma fsGet_tarUnpackOps (files : List (Path × List Byte)) (outDir : Path)
    (hnd : (files.map fun f => f.1).Nodup) :
    ∀ (fs : FS), ∀ e ∈ files,
      fsGet (applyOps fs (tarUnpackOps files outDir)) (outDir ++ e.1) = some e.2 := by
  induction files with
  | nil => intro fs e he; cases he
  | cons f rest ih =>
      intro fs e he
      rw [List.map_cons, List.nodup_cons] at hnd
      have hops : tarUnpackOps (f :: rest) outDir
          = [FsOp.mkdirAll ((outDir ++ f.1).dropLast),
             FsOp.writeFile (outDir ++ f.1) f.2] ++ tarUnpackOps rest outDir := by
        rw [tarUnpackOps, List.flatMap_cons, tarUnpackOps]
      rw [hops, applyOps_append]
      rcases List.mem_cons.mp he with he1 | he1
      · subst he1
        rw [fsGet_applyOps_untouched (tarUnpackOps rest outDir) _ _ ?_]
        · show fsGet (fsWrite (applyOp fs (FsOp.mkdirAll _)) (outDir ++ e.1) e.2)
              (outDir ++ e.1) = some e.2
          exact fsGet_fsWrite_self _ _ _
        · intro op hop
          rcases tarUnpackOps_mem rest outDir op hop with ⟨dp, hd⟩ | ⟨g, hg, hw⟩
          · subst hd; exact fun hc => hc
          · subst hw
            intro hc
            rw [opWritesKey] at hc
            have : g.1 = e.1 := List.append_cancel_left hc
            exact hnd.1 (this ▸ List.mem_map_of_mem (fun x => x.1) hg)
      · exact ih hnd.2 _ e he1

lemma mem_walkRelative (outDir : Path) (fs : FS) (p : Path) (d : List Byte)
    (h : fsGet fs (outDir ++ p) = some d) : p ∈ walkRelative outDir fs := by
  rw [fsGet] at h
  cases hf : fs.find? fun e => e.1 == outDir ++ p with
  | none => rw [hf] at h; cases h
  | some entry =>
      have hmem : entry ∈ fs := List.mem_of_find?_eq_some hf
      have hpred := List.find?_some hf
      simp only [beq_iff_eq] at hpred
      have hkey : entry.1 = outDir ++ p := hpred
      rw [walkRelative]
      apply List.mem_map.mpr
      refine ⟨entry, List.mem_filter.mpr ⟨hmem, ?_⟩, ?_⟩
      · rw [hkey, List.isPrefixOf_iff_prefix]
        exact List.prefix_append outDir p
      · rw [hkey, List.drop_left]

lemma encodeInChunks_ok {contents written : List Byte}
    (h : encodeInChunks contents = RustOutcome.ok written) : written = contents := by
  simp only [encodeInChunks] at h
  split_ifs at h with h0
  injection h with h3
  rw [← h3, writeChunks_chunksOf _ (Nat.pos_of_ne_zero h0)]

lemma zipManual_allFiles (outDir : Path) (entries : List (Path × List Byte)) :
    ((entries.map fun e =>
        ({ name := e.1, isFile := true, data := e.2 } : ZipEntry)).flatMap
      (zipManualStep outDir)) = tarUnpackOps entries outDir := by
  induction entries with
  | nil => rfl
  | cons e rest ih =>
      rw [List.map_cons, List.flatMap_cons, ih]
      rfl

lemma zipBulk_allFiles (outDir : Path) (entries : List (Path × List Byte)) :
    zipBulkOps (entries.map fun e =>
        ({ name := e.1, isFile := true, data := e.2 } : ZipEntry)) outDir
      = tarUnpackOps entries outDir := by
  induction entries with
  | nil => rfl
  | cons e rest ih =>
      rw [List.map_cons]
      have h1 : zipBulkOps (({ name := e.1, isFile := true, data := e.2 } : ZipEntry)
            :: (rest.map fun x =>
              ({ name := x.1, isFile := true, data := x.2 } : ZipEntry))) outDir
          = [FsOp.mkdirAll ((outDir ++ e.1).dropLast),
             FsOp.writeFile (outDir ++ e.1) e.2]
            ++ zipBulkOps (rest.map fun x =>
              ({ name := x.1, isFile := true, data := x.2 } : ZipEntry)) outDir := rfl
      rw [h1, ih]
      rfl

/-- Archive-relative paths reported by an extraction result (empty on a
failed extraction). -/
def extractedPaths (result : List FsOp × Except ArchiveError (List Path)) : List Path :=
  match result.2 with
  | Except.ok paths => paths
  | Except.error _ => []

lemma round_trip_conclusion (entries : List (Path × List Byte)) (outDir : Path)
    (result : List FsOp × Except ArchiveError (List Path))
    (hshape : result.2 = Except.ok (walkRelative outDir (applyOps [] result.1)))
    (hlook : ∀ e ∈ entries,
      fsGet (applyOps [] result.1) (outDir ++ e.1) = some e.2) :
    result.2 = Except.ok (extractedPaths result) ∧
    ∀ e ∈ entries,
      fsGet (applyOps [] result.1) (outDir ++ e.1) = some e.2 ∧
      e.1 ∈ extractedPaths result := by
  have hex : extractedPaths result = walkRelative outDir (applyOps [] result.1) := by
    rw [extractedPaths, hshape]
  refine ⟨by rw [hshape, hex], fun e he => ⟨hlook e he, ?_⟩⟩
  rw [hex]
  exact mem_walkRelative outDir _ e.1 e.2 (hlook e he)

lemma round_trip_chunked_case (c : Codecs) (d : Driver)
    (entries : List (Path × List Byte)) (outDir : Path) (a : ArchiveData)
    (hcodec : ∀ b, c.decompress (c.compress b) = b)
    (htar : c.tarUnpack (c.tarPack entries) = Except.ok entries)
    (hnd : (entries.map fun e => e.1).Nodup)
    (hd : d = Driver.Gzip ∨ d = Driver.Bzip2 ∨ d = Driver.Xz)
    (henc : encode c d entries = RustOutcome.ok a) :
    (extractDispatch c d a outDir []).2
      = Except.ok (extractedPaths (extractDispatch c d a outDir [])) ∧
    ∀ e ∈ entries,
      fsGet (applyOps [] (extractDispatch c d a outDir []).1)
          (outDir ++ e.1) = some e.2 ∧
      e.1 ∈ extractedPaths (extractDispatch c d a outDir []) := by
  have henc' : (match encodeInChunks (c.tarPack entries) with
      | RustOutcome.panicked => RustOutcome.panicked
      | RustOutcome.ok written =>
          RustOutcome.ok (ArchiveData.stream (c.compress written)))
      = RustOutcome.ok a := by
    rcases hd with h | h | h <;> (subst h; exact henc)
  cases hw : encodeInChunks (c.tarPack entries) with
  | panicked => rw [hw] at henc'; cases henc'
  | ok written =>
      rw [hw] at henc'
      injection henc' with ha
      have hwc : written = c.tarPack entries := encodeInChunks_ok hw
      subst hwc
      subst ha
      have hdis : extractDispatch c d
          (ArchiveData.stream (c.compress (c.tarPack entries))) outDir []
          = finishTar c
              (readLoop (readResultsOf (c.decompress (c.compress (c.tarPack entries)))))
              [] outDir [] := by
        rcases hd with h | h | h <;> (subst h; rfl)
      rw [hdis, hcodec (c.tarPack entries), readLoop_readResultsOf]
      have hft : finishTar c (c.tarPack entries) [] outDir []
          = (tarUnpackOps entries outDir,
             Except.ok (walkRelative outDir
               (applyOps [] (tarUnpackOps entries outDir)))) := by
        rw [finishTar, htar]
        rfl
      rw [hft]
      exact round_trip_conclusion entries outDir _ rfl
        fun e he => fsGet_tarUnpackOps entries outDir hnd [] e he

lemma round_trip_sevenz_case (c : Codecs)
    (entries : List (Path × List Byte)) (outDir : Path) (a : ArchiveData)
    (hcodec : ∀ b, c.decompress (c.compress b) = b)
    (htar : c.tarUnpack (c.tarPack entries) = Except.ok entries)
    (hnd : (entries.map fun e => e.1).Nodup)
    (henc : encode c Driver.SevenZ entries = RustOutcome.ok a) :
    (extractDispatch c Driver.SevenZ a outDir []).2
      = Except.ok (extractedPaths (extractDispatch c Driver.SevenZ a outDir [])) ∧
    ∀ e ∈ entries,
      fsGet (applyOps [] (extractDispatch c Driver.SevenZ a outDir []).1)
          (outDir ++ e.1) = some e.2 ∧
      e.1 ∈ extractedPaths (extractDispatch c Driver.SevenZ a outDir []) := by
  injection henc with ha
  subst ha
  have hdis : extractDispatch c Driver.SevenZ
      (ArchiveData.stream (c.compress (c.tarPack entries))) outDir []
      = finishTar c (c.decompress (c.compress (c.tarPack entries)))
          [FsOp.writeFile (outDir ++ [sevenZTarFilename])
             (c.decompress (c.compress (c.tarPack entries))),
           FsOp.removeFile (outDir ++ [sevenZTarFilename])] outDir [] := rfl
  rw [hdis, hcodec (c.tarPack entries)]
  have hft : finishTar c (c.tarPack entries)
      [FsOp.writeFile (outDir ++ [sevenZTarFilename]) (c.tarPack entries),
       FsOp.removeFile (outDir ++ [sevenZTarFilename])] outDir []
      = ([FsOp.writeFile (outDir ++ [sevenZTarFilename]) (c.tarPack entries),
          FsOp.removeFile (outDir ++ [sevenZTarFilename])] ++ tarUnpackOps entries outDir,
         Except.ok (walkRelative outDir (applyOps []
           ([FsOp.writeFile (outDir ++ [sevenZTarFilename]) (c.tarPack entries),
             FsOp.removeFile (outDir ++ [sevenZTarFilename])]
            ++ tarUnpackOps entries outDir)))) := by
    rw [finishTar, htar]
  rw [hft]
  refine round_trip_conclusion entries outDir _ rfl fun e he => ?_
  rw [applyOps_append]
  exact fsGet_tarUnpackOps entries outDir hnd _ e he

lemma round_trip_zip_case (c : Codecs)
    (entries : List (Path × List Byte)) (outDir : Path) (a : ArchiveData)
    (hnd : (entries.map fun e => e.1).Nodup)
    (henc : encode c Driver.Zip entries = RustOutcome.ok a) :
    (extractDispatch c Driver.Zip a outDir []).2
      = Except.ok (extractedPaths (extractDispatch c Driver.Zip a outDir [])) ∧
    ∀ e ∈ entries,
      fsGet (applyOps [] (extractDispatch c Driver.Zip a outDir []).1)
          (outDir ++ e.1) = some e.2 ∧
      e.1 ∈ extractedPaths (extractDispatch c Driver.Zip a outDir []) := by
  injection henc with ha
  subst ha
  have hnd' : (((entries.map fun e =>
      ({ name := e.1, isFile := true, data := e.2 } : ZipEntry)).map
        fun z => z.name)).Nodup := by
    rw [List.map_map]
    exact hnd
  have hbr : zipBranchRun (entries.map fun e =>
        ({ name := e.1, isFile := true, data := e.2 } : ZipEntry)) outDir
      = Except.ok (tarUnpackOps entries outDir ++ tarUnpackOps entries outDir) := by
    rw [zipBranchRun, zipManualRun_ok _ outDir hnd' _ fun e he => he,
      zipManual_allFiles, zipBulk_allFiles]
  have hdis : extractDispatch c Driver.Zip
      (ArchiveData.zipArchive (entries.map fun e =>
        ({ name := e.1, isFile := true, data := e.2 } : ZipEntry))) outDir []
      = (tarUnpackOps entries outDir ++ tarUnpackOps entries outDir,
         Except.ok (walkRelative outDir (applyOps []
           (tarUnpackOps entries outDir ++ tarUnpackOps entries outDir)))) := by
    show (match zipBranchRun (entries.map fun e =>
        ({ name := e.1, isFile := true, data := e.2 } : ZipEntry)) outDir with
      | Except.error e => ([], Except.error e)
      | Except.ok ops =>
          (ops, Except.ok (walkRelative outDir (applyOps ([] : FS) ops)))) = _
    rw [hbr]
  rw [hdis]
  refine round_trip_conclusion entries outDir _ rfl fun e he => ?_
  rw [applyOps_append]
  exact fsGet_tarUnpackOps entries outDir hnd _ e he

/-- C1: for every format and every entry set with distinct archive paths and
arbitrary byte contents, under the contracts of the external codecs (the
format's decompressor inverts its compressor, and tar unpack inverts tar
pack on this entry set), if encoding the entries succeeds then extracting
the produced archive with no expected digest into a fresh output directory
reports success and reconstructs every entry with byte-identical content at
its archive-relative path, which also appears in the reported extracted
path set. -/
theorem encode_extract_round_trip (c : Codecs) (d : Driver)
    (entries : List (Path × List Byte)) (inputBytes : List Byte) (outDir : Path)
    (a : ArchiveData)
    (hcodec : ∀ b, c.decompress (c.compress b) = b)
    (htar : c.tarUnpack (c.tarPack entries) = Except.ok entries)
    (hnd : (entries.map fun e => e.1).Nodup)
    (henc : encode c d entries = RustOutcome.ok a) :
    (extractRun c d inputBytes a none outDir []).2
      = Except.ok (extractedPaths (extractRun c d inputBytes a none outDir [])) ∧
    ∀ e ∈ entries,
      fsGet (applyOps [] (extractRun c d inputBytes a none outDir []).1)
          (outDir ++ e.1) = some e.2 ∧
      e.1 ∈ extractedPaths (extractRun c d inputBytes a none outDir []) := by
  have hrun : extractRun c d inputBytes a none outDir []
      = extractDispatch c d a outDir [] := rfl
  rw [hrun]
  cases d with
  | Gzip =>
      exact round_trip_chunked_case c Driver.Gzip entries outDir a hcodec htar hnd
        (Or.inl rfl) henc
  | Bzip2 =>
      exact round_trip_chunked_case c Driver.Bzip2 entries outDir a hcodec htar hnd
        (Or.inr (Or.inl rfl)) henc
  | Xz =>
      exact round_trip_chunked_case c Driver.Xz entries outDir a hcodec htar hnd
        (Or.inr (Or.inr rfl)) henc
  | SevenZ => exact round_trip_sevenz_case c entries outDir a hcodec htar hnd henc
  | Zip => exact round_trip_zip_case c entries outDir a hnd henc

/-- Entry serialization of the concrete tar-container instance used by the
round-trip witness: segment count, then per segment its character count and
character codes, then the content length and the content bytes. -/
def demoEncodeEntry (e : Path × List Byte) : List Byte :=
  e.1.length :: ((e.1.flatMap fun s => s.data.length :: s.data.map Char.toNat)
    ++ (e.2.length :: e.2))

/-- Concrete tar pack of the witness: entry count, serialized entries, and
zero padding past the 4096-byte chunking threshold. -/
def demoTarPack (es : List (Path × List Byte)) : List Byte :=
  es.length :: (es.flatMap demoEncodeEntry ++ List.replicate 4096 0)

/-- Parse a run of character codes. -/
def demoParseChars : Nat → List Byte → Option (List Char × List Byte)
  | 0, l => some ([], l)
  | _ + 1, [] => none
  | n + 1, b :: l =>
      match demoParseChars n l with
      | none => none
      | some (cs, rest) => some (Char.ofNat b :: cs, rest)

/-- Parse a run of length-prefixed path segments. -/
def demoParseSegs : Nat → List Byte → Option (Path × List Byte)
  | 0, l => some ([], l)
  | _ + 1, [] => none
  | k + 1, n :: l =>
      match demoParseChars n l with
      | none => none
      | some (cs, rest) =>
          match demoParseSegs k rest with
          | none => none
          | some (segs, rest2) => some (String.mk cs :: segs, rest2)

/-- Parse a run of content bytes. -/
def demoParseBytes : Nat → List Byte → Option (List Byte × List Byte)
  | 0, l => some ([], l)
  | _ + 1, [] => none
  | n + 1, b :: l =>
      match demoParseBytes n l with
      | none => none
      | some (bs, rest) => some (b :: bs, rest)

/-- Parse a run of serialized entries. -/
def demoParseEntries : Nat → List Byte → Option (List (Path × List Byte) × List Byte)
  | 0, l => some ([], l)
  | _ + 1, [] => none
  | k + 1, np :: l =>
      match demoParseSegs np l with
      | none => none
      | some (p, rest) =>
          match rest with
          | [] => none
          | nd :: rest2 =>
              match demoParseBytes nd rest2 with
              | none => none
              | some (dbytes, rest3) =>
                  match demoParseEntries k rest3 with
                  | none => none
                  | some (es, rest4) => some ((p, dbytes) :: es, rest4)

/-- Concrete tar unpack of the witness, inverting demoTarPack. -/
def demoTarUnpack (bytes : List Byte) : Except String (List (Path × List Byte)) :=
  match bytes with
  | [] => Except.error "empty tar stream"
  | n :: rest =>
      match demoParseEntries n rest with
      | some (es, _) => Except.ok es
      | none => Except.error "malformed tar stream"

/-- Concrete codec bundle of the round-trip witness: identity compression
and the demo tar container. -/
def demoCodecs : Codecs :=
  { compress := id, decompress := id, tarPack := demoTarPack,
    tarUnpack := demoTarUnpack, hash := fun _ => "d" }

/-- Entry set of the round-trip witness. -/
def demoEntries : List (Path × List Byte) := [(["f.txt"], [1, 2, 3])]

lemma demoTarPack_length : (demoTarPack demoEntries).length = 4108 := by
  rw [demoTarPack, List.length_cons, List.length_append, List.length_replicate]
  rfl

lemma demo_encodeInChunks :
    encodeInChunks (demoTarPack demoEntries)
      = RustOutcome.ok (demoTarPack demoEntries) := by
  have htc : (demoTarPack demoEntries).length / 4096 = 1 := by
    rw [demoTarPack_length]
  simp only [encodeInChunks, htc]
  rw [if_neg (by decide), writeChunks_chunksOf 1 (by decide)]

lemma encode_gzip_eq (c : Codecs) (entries : List (Path × List Byte)) :
    encode c Driver.Gzip entries
      = match encodeInChunks (c.tarPack entries) with
        | RustOutcome.panicked => RustOutcome.panicked
        | RustOutcome.ok written =>
            RustOutcome.ok (ArchiveData.stream (c.compress written)) := rfl

set_option maxRecDepth 8192 in
/-- Witness for C1 at the gzip driver, the demo codec bundle, and a
single-entry set. -/
theorem encode_extract_round_trip_witness :
    (∀ b, demoCodecs.decompress (demoCodecs.compress b) = b) ∧
    demoCodecs.tarUnpack (demoCodecs.tarPack demoEntries) = Except.ok demoEntries ∧
    (demoEntries.map fun e => e.1).Nodup ∧
    encode demoCodecs Driver.Gzip demoEntries
      = RustOutcome.ok (ArchiveData.stream (demoTarPack demoEntries)) ∧
    fsGet (applyOps []
        (extractRun demoCodecs Driver.Gzip []
          (ArchiveData.stream (demoTarPack demoEntries)) none ["out"] []).1)
        (["out"] ++ ["f.txt"]) = some [1, 2, 3] ∧
    ["f.txt"] ∈ extractedPaths
        (extractRun demoCodecs Driver.Gzip []
          (ArchiveData.stream (demoTarPack demoEntries)) none ["out"] []) := by
  have h1 : ∀ b, demoCodecs.decompress (demoCodecs.compress b) = b := fun b => rfl
  have h2 : demoCodecs.tarUnpack (demoCodecs.tarPack demoEntries)
      = Except.ok demoEntries := by rfl
  have h3 : (demoEntries.map fun e => e.1).Nodup := by decide
  have h4 : encode demoCodecs Driver.Gzip demoEntries
      = RustOutcome.ok (ArchiveData.stream (demoTarPack demoEntries)) := by
    rw [encode_gzip_eq]
    have hpack : demoCodecs.tarPack demoEntries = demoTarPack demoEntries := rfl
    rw [hpack, demo_encodeInChunks]
    rfl
  obtain ⟨hA, hB⟩ := encode_extract_round_trip demoCodecs Driver.Gzip demoEntries []
      ["out"] (ArchiveData.stream (demoTarPack demoEntries)) h1 h2 h3 h4
  obtain ⟨hb1, hb2⟩ := hB (["f.txt"], [1, 2, 3]) (by decide)
  exact ⟨h1, h2, h3, h4, hb1, hb2⟩
